import Mathlib

/-!
Verification development for the `datasheet_to_markdown` content-classification
and table-scoring core.

The Python modules `core/classifier.py`, `core/scorer.py`, `extractors/table.py`
and `quality/reporter.py` are shallowly embedded below.  Strings are modelled as
`List Char`; Python floats are modelled as rationals (all arithmetic in the
source is exact on the inputs we consider); regular-expression matching is
embedded by decidable functions whose doc comments justify the translation of
each concrete pattern.  Whitespace (`str.strip`, `str.split`, the regex class
`\s`) is modelled by the six ASCII whitespace characters.
-/

set_option maxRecDepth 40000

namespace DTM

/-- The ASCII whitespace characters: the embedding of Python's notion of
whitespace used by `str.strip`, `str.split` and the regex class `\s`. -/
def isWsC (c : Char) : Bool :=
  c == ' ' || c == '\t' || c == '\n' || c == '\r' || c == '\x0b' || c == '\x0c'

/-- ASCII decimal digits, the regex class `\d`. -/
def isDigitC (c : Char) : Bool :=
  '0' ≤ c && c ≤ '9'

/-- ASCII upper-case letters, the regex class `[A-Z]`. -/
def isUpperC (c : Char) : Bool :=
  'A' ≤ c && c ≤ 'Z'

/-- ASCII lower-case letters. -/
def isLowerC (c : Char) : Bool :=
  'a' ≤ c && c ≤ 'z'

/-- Convenience: the character list underlying a string literal. -/
def cl (s : String) : List Char :=
  s.data

/-- Python `str.strip()`: remove whitespace from both ends. -/
def stripWs (s : List Char) : List Char :=
  ((s.dropWhile isWsC).reverse.dropWhile isWsC).reverse

/-- Helper for `splitWs`: accumulates the current word (reversed) while
scanning the string. -/
def wordsAux : List Char → List Char → List (List Char)
  | [], acc => if acc.isEmpty then [] else [acc.reverse]
  | c :: cs, acc =>
    if isWsC c then
      if acc.isEmpty then wordsAux cs [] else acc.reverse :: wordsAux cs []
    else
      wordsAux cs (c :: acc)

/-- Python `str.split()` with no argument: split on runs of whitespace,
discarding empty pieces. -/
def splitWs (s : List Char) : List (List Char) :=
  wordsAux s []

/-- Python `' '.join(pieces)`. -/
def joinSp : List (List Char) → List Char
  | [] => []
  | [w] => w
  | w :: ws => w ++ ' ' :: joinSp ws

/-- Python `' '.join(s.split())`: collapse whitespace runs to single spaces and
trim both ends. -/
def normalizeWs (s : List Char) : List Char :=
  joinSp (splitWs s)

/-- `str(cell).replace('\n', ' ').replace('\r', ' ')` from
`extractors/table.py` (`_process_table`). -/
def replaceNL (s : List Char) : List Char :=
  s.map fun c => if c == '\n' || c == '\r' then ' ' else c

/-- Python `pat in s` substring containment. -/
def containsSub (pat s : List Char) : Bool :=
  (List.range (s.length + 1)).any fun i =>
    decide ((s.drop i).take pat.length = pat)

/-! ## Confidence scorer (`core/scorer.py`, class `ConfidenceScorer`) -/

/-- The result dictionary of `ConfidenceScorer.score_table`.  The `issues`
entries of the source are strings formatted from the uncertain positions; the
embedding keeps the positions themselves. -/
structure ScoreResult where
  overall_confidence : ℚ
  cell_confidence : List (List ℚ)
  uncertain_cells : List (ℕ × ℕ)
  issues : List (ℕ × ℕ)
  deriving DecidableEq, Repr

/-- `ConfidenceScorer._is_truncated`: contains `...`, `(continued)` or
`(Continued)`, or ends with `<` or `>`. -/
def is_truncated (t : List Char) : Bool :=
  containsSub (cl "...") t ||
  containsSub (cl "(continued)") t ||
  containsSub (cl "(Continued)") t ||
  (match t.getLast? with
   | some c => c == '<' || c == '>'
   | none => false)

/-- `ConfidenceScorer._score_cell`: empty (after trim) scores 0, truncated
text scores 20, everything else 100. -/
def score_cell (cell : List Char) : ℚ :=
  if cell.isEmpty || (stripWs cell).isEmpty then 0
  else if is_truncated cell then 20
  else 100

/-- Inner loop of `score_table` over one row: positions (in row-major order)
whose cell score is strictly below the threshold, starting at column `ci`. -/
def uncertainRow (th : ℚ) (ri : ℕ) : ℕ → List (List Char) → List (ℕ × ℕ)
  | _, [] => []
  | ci, cell :: rest =>
    (if score_cell cell < th then [(ri, ci)] else []) ++
      uncertainRow th ri (ci + 1) rest

/-- Outer loop of `score_table`: all uncertain positions, rows numbered from
`ri`. -/
def uncertainCellsFrom (th : ℚ) : ℕ → List (List (List Char)) → List (ℕ × ℕ)
  | _, [] => []
  | ri, row :: rest =>
    uncertainRow th ri 0 row ++ uncertainCellsFrom th (ri + 1) rest

/-- `ConfidenceScorer.score_table(table_data, flask)` with the scorer's
configured threshold `th`.  Zero-cell guard, per-cell scores, mean of all cell
scores, then averaged with the `flask` accuracy signal. -/
def score_table (th : ℚ) (t : List (List (List Char))) (flask : ℚ) : ScoreResult :=
  match t with
  | [] => ⟨0, [], [], []⟩
  | r0 :: _ =>
    if r0.isEmpty then ⟨0, [], [], []⟩
    else
      let cell_confidence := t.map fun row => row.map score_cell
      let uncertain := uncertainCellsFrom th 0 t
      let flat := cell_confidence.flatten
      let overall0 : ℚ := if flat.isEmpty then 0 else flat.sum / flat.length
      ⟨(overall0 + flask) / 2, cell_confidence, uncertain, uncertain⟩

/-- The dictionary returned by `ConfidenceScorer.analyze_table_complexity`. -/
structure Complexity where
  rows : ℕ
  cols : ℕ
  has_empty : Bool
  empty_count : ℕ
  complexity_score : ℚ
  deriving DecidableEq, Repr

/-- A cell counted as non-empty by `analyze_table_complexity` and
`_process_table` (`cell and cell.strip()` both truthy). -/
def cellFilled (cell : List Char) : Bool :=
  !cell.isEmpty && !(stripWs cell).isEmpty

/-- Number of empty cells of a grid (`not cell or str(cell).strip() == ""`). -/
def emptyCount (t : List (List (List Char))) : ℕ :=
  (t.map fun row => row.countP fun cell => !cellFilled cell).sum

/-- `ConfidenceScorer.analyze_table_complexity`. -/
def analyze_table_complexity (t : List (List (List Char))) : Complexity :=
  match t with
  | [] => ⟨0, 0, false, 0, 0⟩
  | r0 :: _ =>
    let rows := t.length
    let cols := r0.length
    let ec := emptyCount t
    let total := rows * cols
    let size_complexity : ℚ := min ((rows * cols : ℕ) / (200 : ℚ)) 1
    let empty_complexity : ℚ := if 0 < total then min ((ec : ℚ) / (total : ℚ)) 1 else 0
    ⟨rows, cols, decide (0 < ec), ec, (size_complexity + empty_complexity) / 2⟩

/-- `ConfidenceScorer.needs_manual_check(complexity, flask, uncertain_ratio)`:
the source tests the four conditions in sequence, returning `True` at the
first that holds, which is the disjunction below. -/
def needs_manual_check (c : Complexity) (flask uncertainFrac : ℚ) : Bool :=
  decide (20 < c.rows) || decide (6 < c.cols) ||
  decide (flask < 80) || decide ((1 : ℚ)/2 < uncertainFrac)

/-! ## Content classifier (`core/classifier.py`, class `ContentBlockClassifier`)

The four regexes of `SECTION_PATTERNS` are embedded as decidable matchers over
`List Char`, with `re.match` semantics (anchored at the start; `$` matches the
end of the string or just before one final newline; `.` matches any character
except newline; `\s` is the whitespace class above).  The numeric patterns are
parsed deterministically: a greedy `\d+` followed by a mandatory `.` (or a
mandatory whitespace) can only consume the maximal digit run, because the
character after any shorter run is a digit, which is neither `.` nor
whitespace.  The trailing `\s+(.+)$` common to the three numeric patterns is
embedded by the existential search `wsBody` below, which mirrors the regex
engine's backtracking. -/

/-- Maximal digit run of the greedy `\d+`, and the rest of the string. -/
def spanDigits : List Char → List Char × List Char
  | [] => ([], [])
  | c :: cs =>
    if isDigitC c then
      let p := spanDigits cs
      (c :: p.1, p.2)
    else
      ([], c :: cs)

/-- Does `\s+(.+)$` match the whole of `r`?  True exactly when `r` splits as
`ws ++ body ++ tl` with `ws` a nonempty run of whitespace, `body` nonempty and
free of newlines, and `tl` empty or a single final newline (the position at
which `$` matches). -/
def wsBody (r : List Char) : Bool :=
  (List.range (r.length + 1)).any fun i =>
    (List.range (r.length + 1)).any fun j =>
      decide (1 ≤ i) && decide (i < j) &&
      (r.take i).all isWsC &&
      ((r.drop i).take (j - i)).all (fun c => decide (c ≠ '\n')) &&
      decide (r.drop j = [] ∨ r.drop j = ['\n'])

/-- Parse the group `(\d+)\.`: if `s` starts with a nonempty digit run
followed by a literal dot, return what follows the dot.  The greedy `\d+` can
only consume the maximal digit run, since a shorter run is followed by a
digit, not by `.`. -/
def dotAfterDigits (s : List Char) : Option (List Char) :=
  match spanDigits s with
  | (d, '.' :: r) => if d.isEmpty then none else some r
  | _ => none

/-- `re.match(r'^(\d+)\.\s+(.+)$', s)` — the level-1 pattern of
`SECTION_PATTERNS` ("1. Features"). -/
def matchL1 (s : List Char) : Bool :=
  match dotAfterDigits s with
  | some r1 => wsBody r1
  | none => false

/-- `re.match(r'^(\d+)\.(\d+)\.\s+(.+)$', s)` — the level-2 pattern of
`SECTION_PATTERNS` ("2.1. Description"). -/
def matchL2 (s : List Char) : Bool :=
  match dotAfterDigits s with
  | some r1 =>
    match dotAfterDigits r1 with
    | some r2 => wsBody r2
    | none => false
  | none => false

/-- `re.match(r'^(\d+)\.(\d+)\.(\d+)\s+(.+)$', s)` — the level-3 pattern of
`SECTION_PATTERNS` ("3.1.2 Subsection"): after `(\d+)\.(\d+)\.`, a third
nonempty digit run and then `\s+(.+)$`. -/
def matchL3 (s : List Char) : Bool :=
  match dotAfterDigits s with
  | some r1 =>
    match dotAfterDigits r1 with
    | some r2 => !(spanDigits r2).1.isEmpty && wsBody (spanDigits r2).2
    | none => false
  | none => false

/-- The character class `[A-Z\s\d]` of the all-caps pattern. -/
def capsCls (c : Char) : Bool :=
  isUpperC c || isWsC c || isDigitC c

/-- `re.match(r'^([A-Z][A-Z\s\d]+)$', s)` — the all-caps pattern of
`SECTION_PATTERNS` ("FEATURES").  Since `\n` belongs to `\s`, a final newline
absorbed by `$` is also absorbed by the class itself, so the match condition
reduces to: first character upper-case, at least one further character, all
further characters in the class. -/
def matchCaps (s : List Char) : Bool :=
  match s with
  | c :: r => isUpperC c && !r.isEmpty && r.all capsCls
  | [] => false

/-- The first pattern of `SECTION_PATTERNS` (in its listed priority order)
matching `text.strip()`, together with its level.  `_is_heading` rule 1 asks
whether this is `some _`; `_extract_heading_level` returns its value, with
default level 2. -/
def sectionLevel (text : List Char) : Option ℕ :=
  let t := stripWs text
  if matchL3 t then some 3
  else if matchL2 t then some 2
  else if matchL1 t then some 1
  else if matchCaps t then some 2
  else none

/-- A positioned word as consumed by `_is_heading`: only the font size is
relevant, and a pdfplumber word dictionary may lack the `size` key. -/
structure Word where
  size : Option ℚ
  deriving DecidableEq, Repr

/-- Mean of `w.get("size", 12)` over the line's words. -/
def meanFontSize (ws : List Word) : ℚ :=
  (ws.map fun w => w.size.getD 12).sum / ws.length

/-- Rule 2 of `_is_heading`: the first word carries a `size` key and the mean
font size exceeds 14. -/
def fontHeading (ws : List Word) : Bool :=
  match ws with
  | [] => false
  | w :: _ => w.size.isSome && decide (14 < meanFontSize ws)

/-- `ContentBlockClassifier._is_heading(text, words)`: a section pattern
matches, or the font-size fallback fires. -/
def is_heading (text : List Char) (ws : List Word) : Bool :=
  (sectionLevel text).isSome || fontHeading ws

/-- `ContentBlockClassifier._extract_heading_level(text)`: level of the first
matching pattern, defaulting to 2. -/
def extract_heading_level (text : List Char) : ℕ :=
  (sectionLevel text).getD 2

/-- `re.match(r'^\d+[\.\)]\s+', s)`: digits, then `.` or `)`, then at least
one whitespace character (`re.match` only needs a prefix match, so one
whitespace character suffices). -/
def matchOrdered (s : List Char) : Bool :=
  match spanDigits s with
  | (d, b :: w :: _) => !d.isEmpty && (b == '.' || b == ')') && isWsC w
  | _ => false

/-- `ContentBlockClassifier._is_list(text)`. -/
def is_list (text : List Char) : Bool :=
  let stripped := stripWs text
  (match stripped with
   | c :: _ => c == '•' || c == '-' || c == '*' || c == '·'
   | [] => false) ||
  matchOrdered stripped

/-- The content-type tags of `core/classifier.py`. -/
inductive ContentType where
  | heading
  | paragraph
  | listItem
  | table
  | image
  | footer
  | page_number
  deriving DecidableEq, Repr

/-- The metadata dictionary attached by `_classify_text_type`: the heading
branch stores `confidence`, the list branch stores `ordered`. -/
structure TextMeta where
  confidence : Option ℚ
  ordered : Option Bool
  deriving DecidableEq, Repr

/-- `ContentBlockClassifier._classify_text_type(text, words)`: heading first
(confidence 0.95), then list (`ordered` true iff the first character of the
text is a digit), else paragraph. -/
def classify_text_type (text : List Char) (ws : List Word) : ContentType × TextMeta :=
  if is_heading text ws then
    (ContentType.heading, ⟨some (19/20), none⟩)
  else if is_list text then
    (ContentType.listItem,
     ⟨none, some (match text with | c :: _ => isDigitC c | [] => false)⟩)
  else
    (ContentType.paragraph, ⟨none, none⟩)

/-! ### Header/footer filter and block ordering (`classify`, `_is_footer`) -/

/-- The slice of `ContentBlock` that `classify` and `_is_footer` consult: the
type tag, the content string and the bounding box `(x0, y0, x1, y1)`.  `y0` is
the pdfplumber `top` coordinate of the line, which grows downward from the top
edge of the page. -/
structure Block where
  btype : ContentType
  content : List Char
  bbox : ℚ × ℚ × ℚ × ℚ
  deriving DecidableEq, Repr

/-- `re.match(r'^\s*\d+\s*$', text)`: the string strips to a nonempty run of
digits.  (`\s*` at either end absorbs exactly the stripped whitespace, the
final newline case of `$` included, and the digits must be contiguous.) -/
def reNum (t : List Char) : Bool :=
  let s := stripWs t
  !s.isEmpty && s.all isDigitC

/-- Is the next character, after optional whitespace, a digit?  This embeds a
`\s*\d` tail with a greedy-irrelevant split: any shorter whitespace run is
followed by whitespace, not a digit. -/
def digitAfterWs (r : List Char) : Bool :=
  match r.dropWhile isWsC with
  | c :: _ => isDigitC c
  | [] => false

/-- `re.match(r'.*(page|页)\s*\d+.*', text, re.I)` — a prefix match, so the
trailing `.*` is vacuous: some newline-free prefix is followed by the keyword
`page` (case-insensitive) or `页`, optional whitespace and a digit. -/
def rePage (t : List Char) : Bool :=
  (List.range (t.length + 1)).any fun i =>
    ((t.take i).all fun c => decide (c ≠ '\n')) &&
    (((t.drop i).take 4).map Char.toLower == cl "page" && digitAfterWs ((t.drop i).drop 4) ||
     (t.drop i).take 1 == ['页'] && digitAfterWs ((t.drop i).drop 1))

/-- `re.match(r'^\s*-\s*\d+\s*-\s*$', text)`: each `\s*` is forced to the
maximal whitespace run because the following mandatory token (`-` or a digit)
is not whitespace; the final `\s*$` accepts exactly a whitespace suffix. -/
def reDash (t : List Char) : Bool :=
  match t.dropWhile isWsC with
  | '-' :: r2 =>
    let p := spanDigits (r2.dropWhile isWsC)
    !p.1.isEmpty &&
    (match p.2.dropWhile isWsC with
     | '-' :: r5 => r5.all isWsC
     | _ => false)
  | _ => false

/-- Python `str.isupper()` restricted to ASCII: at least one cased character
and no lower-case character. -/
def isUpperStr (s : List Char) : Bool :=
  (s.any fun c => isUpperC c || isLowerC c) && (s.all fun c => !isLowerC c)

/-- `ContentBlockClassifier._is_footer(block)`: position gate (top or bottom
10% of the page), then the boilerplate content rules. -/
def is_footer (page_height : ℚ) (b : Block) : Bool :=
  let y0 := b.bbox.2.1
  if page_height * (9/10) < y0 || y0 < page_height * (1/10) then
    let text := stripWs b.content
    reNum text || rePage text || reDash text ||
    (decide (text.length < 50) && isUpperStr text &&
      !(b.btype == ContentType.heading))
  else
    false

/-- Stable insertion for a descending sort on `bbox[1]`: the new block goes
after every already-placed block whose key is not smaller.  This realizes
Python's stable `blocks.sort(key=lambda b: b.bbox[1], reverse=True)`. -/
def insertDescY0 (b : Block) : List Block → List Block
  | [] => [b]
  | x :: xs =>
    if b.bbox.2.1 ≤ x.bbox.2.1 then x :: insertDescY0 b xs else b :: x :: xs

/-- The sort of `classify` step 3: stable, by `bbox[1]` descending. -/
def sortDescY0 (bs : List Block) : List Block :=
  bs.foldl (fun acc b => insertDescY0 b acc) []

/-- Steps 3 and 4 of `ContentBlockClassifier.classify`: sort the page's blocks
by `bbox[1]` descending, then drop headers/footers; no re-sort afterwards. -/
def classifyBlocks (page_height : ℚ) (bs : List Block) : List Block :=
  (sortDescY0 bs).filter fun b => !is_footer page_height b

/-! ## Table extractor (`extractors/table.py`, class `TableExtractor`) -/

/-- A raw table as returned by `page.extract_tables()`: rows of cells, where a
cell is `None` or a string. -/
abbrev RawTable : Type :=
  List (List (Option (List Char)))

/-- Cell cleaning in `_process_table`: `None` becomes the empty string,
otherwise newlines and carriage returns become spaces and whitespace runs are
collapsed. -/
def cleanCell : Option (List Char) → List Char
  | none => []
  | some s => normalizeWs (replaceNL s)

/-- One cleaned row. -/
def cleanRow (r : List (Option (List Char))) : List (List Char) :=
  r.map cleanCell

/-- The row filter of `_process_table`: `cleaned_row` truthy (nonempty) and at
least one cell with nonempty `strip()`. -/
def rowKept (r : List (List Char)) : Bool :=
  !r.isEmpty && r.any fun cell => !(stripWs cell).isEmpty

/-- Python `max` over a list of naturals (used only on nonempty lists). -/
def maxNat (l : List ℕ) : ℕ :=
  l.foldr max 0

/-- Column `c` "has data": some row's cell at index `c` is truthy with truthy
`strip()` — the `has_data` array of `_process_table`. -/
def hasData (g : List (List (List Char))) (c : ℕ) : Bool :=
  g.any fun row =>
    match row.get? c with
    | some cell => cellFilled cell
    | none => false

/-- The padding step of `_process_table`: right-pad every row with empty
strings up to the maximum row length (`max_cols`). -/
def padRows (rows : List (List (List Char))) : List (List (List Char)) :=
  rows.map fun r => r ++ List.replicate (maxNat (rows.map List.length) - r.length) []

/-- The column-truncation step of `_process_table`: if any of the `m` column
indices has data, cut every row after the last such index; the source guards
with `if any(has_data)` and otherwise leaves the rows alone. -/
def truncateCols (m : ℕ) (padded : List (List (List Char))) : List (List (List Char)) :=
  let colsWith := (List.range m).filter fun c => hasData padded c
  if colsWith.isEmpty then padded
  else padded.map fun r => r.take (maxNat colsWith + 1)

/-- The grid transformation of `_process_table` (`extractors/table.py` lines
88–129): clean cells, drop all-empty rows (`None` when nothing remains), pad
rows to the maximum length (`max_cols`), and truncate fully-empty trailing
columns. -/
def processGrid (t : RawTable) : Option (List (List (List Char))) :=
  let filtered := (t.map cleanRow).filter rowKept
  if filtered.isEmpty then none
  else some (truncateCols (maxNat (filtered.map List.length)) (padRows filtered))

/-- Number of cells of a (possibly ragged) grid. -/
def cellCount (g : List (List (List Char))) : ℕ :=
  (g.map List.length).sum

/-- Number of non-empty cells (`cell and cell.strip()` truthy). -/
def filledCount (g : List (List (List Char))) : ℕ :=
  (g.map fun row => row.countP cellFilled).sum

/-- The table dictionary built by `_process_table` (the `bbox` entry is always
`None` in the source and is omitted). -/
structure TableResult where
  data : List (List (List Char))
  flask : ℚ
  page : ℕ
  idx : ℕ
  needs_check : Bool
  uncertain_cells : List (ℕ × ℕ)
  complexity : Complexity
  confidence : ℚ
  deriving DecidableEq, Repr

/-- `TableExtractor._process_table(table_data, index)` for a scorer threshold
`th` and page number `pn`: the grid transformation, then the simulated flask
score (share of non-empty cells), confidence scoring, complexity analysis and
the manual-check decision. -/
def process_table (th : ℚ) (pn idx : ℕ) (t : RawTable) : Option TableResult :=
  match processGrid t with
  | none => none
  | some data =>
    let total := cellCount data
    let flask : ℚ := if 0 < total then (filledCount data : ℚ) / (total : ℚ) * 100 else 50
    let score := score_table th data flask
    let cx := analyze_table_complexity data
    let frac : ℚ :=
      if 0 < cx.rows then (score.uncertain_cells.length : ℚ) / ((cx.rows * cx.cols : ℕ) : ℚ)
      else 0
    some ⟨data, flask, pn, idx, needs_manual_check cx flask frac,
          score.uncertain_cells, cx, score.overall_confidence⟩

/-- `TableExtractor.extract(page)`: the pdfplumber call
`page.extract_tables()` either raises (`Except.error`) or returns a list of
raw tables.  The source wraps the whole body in `try/except`, logging any
exception and returning the tables accumulated so far — an exception in
`extract_tables` itself therefore yields the empty list.  On success each raw
table is processed and `None` results are dropped. -/
def extract (th : ℚ) (pn : ℕ) (res : Except (List Char) (List RawTable)) :
    List TableResult :=
  match res with
  | .error _ => []
  | .ok ts => ts.enum.filterMap fun p => process_table th pn p.1 p.2

/-! ## Quality reporter (`quality/reporter.py`, class `QualityReporter`) -/

/-- One recorded table summary, as consumed by `report_table`/`get_metrics`
(`complexity` flattened to the two entries `get_metrics` reads). -/
structure ReportedTable where
  flask : Option ℚ
  manual : Bool
  uncertain_cells : List (ℕ × ℕ)
  rows : ℕ
  cols : ℕ
  deriving DecidableEq, Repr

/-- The metrics dictionary of `QualityReporter.get_metrics`. -/
structure Metrics where
  total_tables : ℕ
  manual_check_tables : ℕ
  manual_check_frac : ℚ
  avg_confidence : ℚ
  coverage : ℚ
  deriving DecidableEq, Repr

/-- `QualityReporter.get_metrics` after the tables of `tabs` were recorded by
`report_table` in order: `total_tables` and `total_confidence` are the running
totals of `report_table` (confidence summed over tables carrying a `flask`
key); coverage is `(1 - uncertain_ratio * 0.5) * 100`, with ratio `0` when no
cells were recorded, and is not clamped. -/
def get_metrics (tabs : List ReportedTable) : Metrics :=
  let total := tabs.length
  let totalConf : ℚ := (tabs.filterMap fun t => t.flask).sum
  let manual := tabs.countP fun t => t.manual
  let totU : ℕ := (tabs.map fun t => t.uncertain_cells.length).sum
  let totC : ℕ := (tabs.map fun t => t.rows * t.cols).sum
  let uFrac : ℚ := if 0 < totC then (totU : ℚ) / (totC : ℚ) else 0
  ⟨total, manual,
   if 0 < total then (manual : ℚ) / (total : ℚ) else 0,
   if 0 < total then totalConf / (total : ℚ) else 0,
   (1 - uFrac * (1/2)) * 100⟩

/-! ## Helper lemmas -/

/-- A whitespace character is not a digit. -/
theorem ws_not_digit {c : Char} (h : isWsC c = true) : isDigitC c = false := by
  unfold isWsC at h
  simp only [Bool.or_eq_true, beq_iff_eq] at h
  rcases h with ((((h | h) | h) | h) | h) | h <;> subst h <;> decide

/-- If `\s+(.+)$` matches `r`, then `r` starts with a whitespace character. -/
theorem wsBody_head {r : List Char} (h : wsBody r = true) :
    ∃ c t', r = c :: t' ∧ isWsC c = true := by
  unfold wsBody at h
  simp only [List.any_eq_true, List.mem_range, Bool.and_eq_true,
    decide_eq_true_eq] at h
  obtain ⟨i, -, j, hj, ⟨⟨⟨h1i, hij⟩, htake⟩, -⟩, -⟩ := h
  cases r with
  | nil => simp at hj; omega
  | cons c t' =>
    refine ⟨c, t', rfl, ?_⟩
    obtain ⟨i', rfl⟩ : ∃ i', i = i' + 1 := ⟨i - 1, by omega⟩
    rw [List.take_succ_cons, List.all_cons, Bool.and_eq_true] at htake
    exact htake.1

/-- `spanDigits` leaves a string whose head is not a digit untouched. -/
theorem spanDigits_not_digit {c : Char} (h : isDigitC c = false) (cs : List Char) :
    spanDigits (c :: cs) = ([], c :: cs) := by
  simp [spanDigits, h]

/-- A string starting with whitespace has no leading `(\d+)\.` group. -/
theorem dotAfterDigits_ws {c : Char} (hws : isWsC c = true) (t : List Char) :
    dotAfterDigits (c :: t) = none := by
  unfold dotAfterDigits
  rw [spanDigits_not_digit (ws_not_digit hws)]
  split
  case _ d r heq =>
    rw [Prod.mk.injEq] at heq
    obtain ⟨hd, -⟩ := heq
    rw [← hd]
    rfl
  case _ => rfl

/-- Unfolding equation: `matchL1` through a parsed `(\d+)\.` group. -/
theorem matchL1_some {s r1 : List Char} (h : dotAfterDigits s = some r1) :
    matchL1 s = wsBody r1 := by
  unfold matchL1
  rw [h]

/-- Unfolding equation: `matchL2` through a parsed `(\d+)\.` group. -/
theorem matchL2_some {s r1 : List Char} (h : dotAfterDigits s = some r1) :
    matchL2 s = match dotAfterDigits r1 with
      | some r2 => wsBody r2
      | none => false := by
  unfold matchL2
  rw [h]

/-- Unfolding equation: `matchL3` through a parsed `(\d+)\.` group. -/
theorem matchL3_some {s r1 : List Char} (h : dotAfterDigits s = some r1) :
    matchL3 s = match dotAfterDigits r1 with
      | some r2 => !(spanDigits r2).1.isEmpty && wsBody (spanDigits r2).2
      | none => false := by
  unfold matchL3
  rw [h]

/-- A true `matchL1` exposes the `(\d+)\.` group and its whitespace tail. -/
theorem matchL1_elim {s : List Char} (h : matchL1 s = true) :
    ∃ r1, dotAfterDigits s = some r1 ∧ wsBody r1 = true := by
  unfold matchL1 at h
  split at h
  case _ r1 heq => exact ⟨r1, heq, h⟩
  case _ => exact absurd h (by simp)

/-- A line matching the level-1 pattern does not match the level-2 pattern:
after the first `\d+\.`, level 1 demands whitespace where level 2 demands a
digit followed by a dot. -/
theorem matchL1_not_matchL2 {s : List Char} (h : matchL1 s = true) :
    matchL2 s = false := by
  obtain ⟨r1, heq, hws⟩ := matchL1_elim h
  obtain ⟨c, t', rfl, hc⟩ := wsBody_head hws
  rw [matchL2_some heq, dotAfterDigits_ws hc]

/-- A line matching the level-1 pattern does not match the level-3 pattern. -/
theorem matchL1_not_matchL3 {s : List Char} (h : matchL1 s = true) :
    matchL3 s = false := by
  obtain ⟨r1, heq, hws⟩ := matchL1_elim h
  obtain ⟨c, t', rfl, hc⟩ := wsBody_head hws
  rw [matchL3_some heq, dotAfterDigits_ws hc]

/-- A line matching the level-2 pattern does not match the level-3 pattern:
after `\d+\.\d+\.`, level 2 demands whitespace where level 3 demands a digit. -/
theorem matchL2_not_matchL3 {s : List Char} (h : matchL2 s = true) :
    matchL3 s = false := by
  unfold matchL2 at h
  split at h
  case _ r1 heq =>
    split at h
    case _ r2 heq2 =>
      obtain ⟨c, t', rfl, hc⟩ := wsBody_head h
      rw [matchL3_some heq, heq2]
      simp [spanDigits_not_digit (ws_not_digit hc)]
    case _ => exact absurd h (by simp)
  case _ => exact absurd h (by simp)

/-- Every cell score is 0, 20 or 100, hence lies within [0, 100]. -/
theorem score_cell_bounds (cell : List Char) :
    0 ≤ score_cell cell ∧ score_cell cell ≤ 100 := by
  unfold score_cell
  split_ifs <;> norm_num

/-- Sum bound for a list of rationals within [0, 100]. -/
theorem sum_bounds_of_mem {l : List ℚ} (h : ∀ x ∈ l, 0 ≤ x ∧ x ≤ 100) :
    0 ≤ l.sum ∧ l.sum ≤ 100 * l.length := by
  induction l with
  | nil => simp
  | cons a t ih =>
    obtain ⟨ha0, ha1⟩ := h a (List.mem_cons_self a t)
    obtain ⟨ht0, ht1⟩ := ih fun x hx => h x (List.mem_cons_of_mem a hx)
    rw [List.sum_cons, List.length_cons]
    push_cast
    constructor <;> linarith

/-- The uncertain positions collected over one row are as many as the cells of
the row scoring below the threshold. -/
theorem uncertainRow_length (th : ℚ) (ri : ℕ) :
    ∀ (row : List (List Char)) (ci : ℕ),
      (uncertainRow th ri ci row).length =
        row.countP fun cell => decide (score_cell cell < th) := by
  intro row
  induction row with
  | nil => intro ci; rfl
  | cons cell rest ih =>
    intro ci
    by_cases hc : score_cell cell < th <;>
      simp [uncertainRow, hc, List.countP_cons, ih (ci + 1)]

/-- The uncertain positions collected over the grid are as many as the cells
scoring below the threshold. -/
theorem uncertainCellsFrom_length (th : ℚ) :
    ∀ (t : List (List (List Char))) (ri : ℕ),
      (uncertainCellsFrom th ri t).length =
        (t.map fun row =>
          row.countP fun cell => decide (score_cell cell < th)).sum := by
  intro t
  induction t with
  | nil => intro ri; rfl
  | cons row rest ih =>
    intro ri
    simp [uncertainCellsFrom, uncertainRow_length, ih (ri + 1)]

/-- `countP` is monotone in the predicate. -/
theorem countP_mono_of_imp {α : Type} {p q : α → Bool}
    (hpq : ∀ a, p a = true → q a = true) :
    ∀ l : List α, l.countP p ≤ l.countP q := by
  intro l
  induction l with
  | nil => simp
  | cons a t ih =>
    rw [List.countP_cons, List.countP_cons]
    by_cases ha : p a = true
    · rw [if_pos ha, if_pos (hpq a ha)]
      omega
    · rw [if_neg ha]
      split_ifs <;> omega

/-- Membership in the per-row uncertain positions, at arbitrary starting
column. -/
theorem uncertainRow_mem (th : ℚ) (ri : ℕ) :
    ∀ (row : List (List Char)) (ci0 r c : ℕ),
      ((r, c) ∈ uncertainRow th ri ci0 row) ↔
        (r = ri ∧ ∃ k cell, row.get? k = some cell ∧ c = ci0 + k ∧
          score_cell cell < th) := by
  intro row
  induction row with
  | nil =>
    intro ci0 r c
    simp [uncertainRow]
  | cons cell rest ih =>
    intro ci0 r c
    by_cases hc : score_cell cell < th
    · simp only [uncertainRow, if_pos hc, List.mem_append, List.mem_singleton,
        ih (ci0 + 1)]
      constructor
      · rintro (heq | ⟨rfl, k, cell', hget, rfl, hlt⟩)
        · rw [Prod.mk.injEq] at heq
          obtain ⟨rfl, rfl⟩ := heq
          exact ⟨rfl, 0, cell, rfl, by omega, hc⟩
        · exact ⟨rfl, k + 1, cell', hget, by omega, hlt⟩
      · rintro ⟨rfl, k, cell', hget, rfl, hlt⟩
        cases k with
        | zero =>
          rw [List.get?_cons_zero] at hget
          injection hget with hcell
          subst hcell
          left
          simp
        | succ k' =>
          right
          refine ⟨rfl, k', cell', by simpa using hget, by omega, hlt⟩
    · simp only [uncertainRow, if_neg hc, List.nil_append, ih (ci0 + 1)]
      constructor
      · rintro ⟨rfl, k, cell', hget, rfl, hlt⟩
        exact ⟨rfl, k + 1, cell', hget, by omega, hlt⟩
      · rintro ⟨rfl, k, cell', hget, rfl, hlt⟩
        cases k with
        | zero =>
          rw [List.get?_cons_zero] at hget
          injection hget with hcell
          subst hcell
          exact absurd hlt hc
        | succ k' =>
          refine ⟨rfl, k', cell', by simpa using hget, by omega, hlt⟩

/-- Membership in the uncertain positions of the whole grid, at arbitrary
starting row. -/
theorem uncertainCellsFrom_mem (th : ℚ) :
    ∀ (t : List (List (List Char))) (ri0 r c : ℕ),
      ((r, c) ∈ uncertainCellsFrom th ri0 t) ↔
        (∃ i row cell, t.get? i = some row ∧ r = ri0 + i ∧
          row.get? c = some cell ∧ score_cell cell < th) := by
  intro t
  induction t with
  | nil =>
    intro ri0 r c
    simp [uncertainCellsFrom]
  | cons row rest ih =>
    intro ri0 r c
    simp only [uncertainCellsFrom, List.mem_append, uncertainRow_mem,
      ih (ri0 + 1)]
    constructor
    · rintro (⟨rfl, k, cell, hget, rfl, hlt⟩ | ⟨i, row', cell, hget, rfl, hget2, hlt⟩)
      · exact ⟨0, row, cell, rfl, by omega, by simpa using hget, hlt⟩
      · exact ⟨i + 1, row', cell, by simpa using hget, by omega, hget2, hlt⟩
    · rintro ⟨i, row', cell, hget, rfl, hget2, hlt⟩
      cases i with
      | zero =>
        left
        rw [List.get?_cons_zero] at hget
        injection hget with hrow
        subst hrow
        exact ⟨by omega, c, cell, hget2, by omega, hlt⟩
      | succ i' =>
        right
        exact ⟨i', row', cell, by simpa using hget, by omega, hget2, hlt⟩

/-- A kept row is nonempty and has a cell with nonempty `strip()`. -/
theorem rowKept_iff {r : List (List Char)} :
    rowKept r = true ↔ r ≠ [] ∧ ∃ cell ∈ r, stripWs cell ≠ [] := by
  simp [rowKept, List.any_eq_true, List.isEmpty_iff]

/-- A cell with nonempty `strip()` is counted as filled. -/
theorem cellFilled_of_strip {cell : List Char} (h : stripWs cell ≠ []) :
    cellFilled cell = true := by
  have hc : cell ≠ [] := by
    rintro rfl
    exact h rfl
  simp [cellFilled, List.isEmpty_iff, h, hc]

/-- Characterization of `hasData`. -/
theorem hasData_iff {g : List (List (List Char))} {c : ℕ} :
    hasData g c = true ↔
      ∃ row ∈ g, ∃ cell, row.get? c = some cell ∧ cellFilled cell = true := by
  rw [hasData, List.any_eq_true]
  constructor
  · rintro ⟨row, hrow, hmatch⟩
    cases hget : row.get? c with
    | none => rw [hget] at hmatch; simp at hmatch
    | some cell => rw [hget] at hmatch; exact ⟨row, hrow, cell, hget, hmatch⟩
  · rintro ⟨row, hrow, cell, hget, hfill⟩
    refine ⟨row, hrow, ?_⟩
    rw [hget]
    exact hfill

/-- `maxNat` over a cons. -/
theorem maxNat_cons (b : ℕ) (t : List ℕ) : maxNat (b :: t) = max b (maxNat t) :=
  rfl

/-- Every member is bounded by `maxNat`. -/
theorem le_maxNat : ∀ {l : List ℕ} {a : ℕ}, a ∈ l → a ≤ maxNat l := by
  intro l
  induction l with
  | nil =>
    intro a ha
    simp at ha
  | cons b t ih =>
    intro a ha
    rw [List.mem_cons] at ha
    rw [maxNat_cons]
    rcases ha with rfl | ha
    · exact le_max_left _ _
    · exact le_trans (ih ha) (le_max_right _ _)

/-- `maxNat` is below any upper bound of the list. -/
theorem maxNat_le {l : List ℕ} {b : ℕ} (h : ∀ a ∈ l, a ≤ b) : maxNat l ≤ b := by
  induction l with
  | nil => exact Nat.zero_le b
  | cons a t ih =>
    rw [maxNat_cons]
    exact max_le (h a (List.mem_cons_self _ _))
      (ih fun x hx => h x (List.mem_cons_of_mem _ hx))

/-- `maxNat` of a nonempty list is one of its members. -/
theorem maxNat_mem : ∀ {l : List ℕ}, l ≠ [] → maxNat l ∈ l := by
  intro l
  induction l with
  | nil => intro h; exact absurd rfl h
  | cons a t ih =>
    intro _
    rw [maxNat_cons]
    cases t with
    | nil => simp [maxNat]
    | cons b t' =>
      rcases le_total a (maxNat (b :: t')) with hle | hle
      · rw [max_eq_right hle]
        exact List.mem_cons_of_mem _ (ih (by simp))
      · rw [max_eq_left hle]
        exact List.mem_cons_self _ _

/-- A member that bounds the whole list is its `maxNat`. -/
theorem maxNat_eq_of_mem_of_le {l : List ℕ} {a : ℕ} (ha : a ∈ l)
    (hb : ∀ x ∈ l, x ≤ a) : maxNat l = a :=
  le_antisymm (maxNat_le hb) (le_maxNat ha)

/-- Every row of a padded grid has the maximum row length. -/
theorem padRows_length {rows : List (List (List Char))} :
    ∀ row ∈ padRows rows, row.length = maxNat (rows.map List.length) := by
  intro row hrow
  rw [padRows, List.mem_map] at hrow
  obtain ⟨r, hr, rfl⟩ := hrow
  have hle : r.length ≤ maxNat (rows.map List.length) :=
    le_maxNat (List.mem_map_of_mem List.length hr)
  rw [List.length_append, List.length_replicate]
  omega

/-- `padRows` keeps the list of rows nonempty. -/
theorem padRows_ne_nil {rows : List (List (List Char))} (h : rows ≠ []) :
    padRows rows ≠ [] := by
  rw [padRows]
  simpa using h

/-- Unfolding equation for `processGrid` when some row survives. -/
theorem processGrid_eq {t : RawTable}
    (h : ((t.map cleanRow).filter rowKept).isEmpty = false) :
    processGrid t =
      some (truncateCols
        (maxNat (((t.map cleanRow).filter rowKept).map List.length))
        (padRows ((t.map cleanRow).filter rowKept))) := by
  simp [processGrid, h]

/-- Unfolding equation for `truncateCols` when some column has data. -/
theorem truncateCols_eq {m : ℕ} {padded : List (List (List Char))}
    (h : ((List.range m).filter fun c => hasData padded c) ≠ []) :
    truncateCols m padded =
      padded.map fun r =>
        r.take (maxNat ((List.range m).filter fun c => hasData padded c) + 1) := by
  simp [truncateCols, List.isEmpty_iff, h]

/-- When every surviving row is kept and some row survives, some column of the
padded grid has data: the source's `if any(has_data)` branch is always taken
on a nonempty filtered grid. -/
theorem colsWith_ne_nil {rows : List (List (List Char))}
    (hf : ∀ row ∈ rows, rowKept row = true) (hne : rows ≠ []) :
    ((List.range (maxNat (rows.map List.length))).filter
      fun c => hasData (padRows rows) c) ≠ [] := by
  obtain ⟨r1, hr1⟩ := List.exists_mem_of_ne_nil rows hne
  obtain ⟨-, cell, hcell, hstrip⟩ := rowKept_iff.mp (hf r1 hr1)
  obtain ⟨j, hj⟩ := List.get?_of_mem hcell
  have hjlt : j < r1.length := by
    by_contra hge
    rw [List.get?_eq_none.mpr (by omega)] at hj
    exact Option.noConfusion hj
  have hlem : r1.length ≤ maxNat (rows.map List.length) :=
    le_maxNat (List.mem_map_of_mem List.length hr1)
  have hdata : hasData (padRows rows) j = true := by
    rw [hasData_iff]
    refine ⟨r1 ++ List.replicate (maxNat (rows.map List.length) - r1.length) [],
      ?_, cell, ?_, cellFilled_of_strip hstrip⟩
    · rw [padRows]
      exact List.mem_map_of_mem _ hr1
    · rw [List.get?_append hjlt]
      exact hj
  apply List.ne_nil_of_mem (a := j)
  rw [List.mem_filter, List.mem_range]
  exact ⟨by omega, hdata⟩

/-- Shape of a `processGrid` result: nonempty, and all rows share one positive
length (the grid is rectangular with at least one cell). -/
theorem processGrid_shape {t : RawTable} {g : List (List (List Char))}
    (h : processGrid t = some g) :
    ∃ L, 0 < L ∧ g ≠ [] ∧ ∀ row ∈ g, row.length = L := by
  by_cases hemp : ((t.map cleanRow).filter rowKept).isEmpty = true
  · have : processGrid t = none := by simp [processGrid, hemp]
    rw [this] at h
    exact Option.noConfusion h
  · have hemp' : ((t.map cleanRow).filter rowKept).isEmpty = false := by
      simpa using hemp
    rw [processGrid_eq hemp'] at h
    injection h with hg
    have hfne : (t.map cleanRow).filter rowKept ≠ [] := by
      intro hh
      rw [hh] at hemp'
      simp at hemp'
    have hf : ∀ row ∈ (t.map cleanRow).filter rowKept, rowKept row = true :=
      fun row hrow => (List.mem_filter.mp hrow).2
    have hcne := colsWith_ne_nil hf hfne
    rw [truncateCols_eq hcne] at hg
    have hlvcmem := maxNat_mem hcne
    rw [List.mem_filter, List.mem_range] at hlvcmem
    refine ⟨maxNat ((List.range
        (maxNat (((t.map cleanRow).filter rowKept).map List.length))).filter
        fun c => hasData (padRows ((t.map cleanRow).filter rowKept)) c) + 1,
      by omega, ?_, ?_⟩
    · rw [← hg]
      simpa using padRows_ne_nil hfne
    · intro row hrow
      rw [← hg, List.mem_map] at hrow
      obtain ⟨r, hr, rfl⟩ := hrow
      rw [List.length_take, padRows_length r hr]
      omega

/-- A rectangular nonempty grid with positive row length has cells. -/
theorem cellCount_pos {g : List (List (List Char))} {L : ℕ} (h0 : 0 < L)
    (hne : g ≠ []) (hlen : ∀ row ∈ g, row.length = L) : 0 < cellCount g := by
  obtain ⟨r, hr⟩ := List.exists_mem_of_ne_nil g hne
  rw [cellCount]
  calc 0 < L := h0
    _ = r.length := (hlen r hr).symm
    _ ≤ (g.map List.length).sum := List.single_le_sum (by simp) _
        (List.mem_map_of_mem List.length hr)

/-- At most as many filled cells as cells. -/
theorem filledCount_le_cellCount (g : List (List (List Char))) :
    filledCount g ≤ cellCount g := by
  rw [filledCount, cellCount]
  apply List.sum_le_sum
  intro row hrow
  exact List.countP_le_length _

/-- Words produced by `wordsAux` are nonempty and whitespace-free, provided
the accumulator is whitespace-free. -/
theorem wordsAux_words : ∀ (s acc : List Char),
    (∀ c ∈ acc, isWsC c = false) →
    ∀ w ∈ wordsAux s acc, w ≠ [] ∧ ∀ c ∈ w, isWsC c = false := by
  intro s
  induction s with
  | nil =>
    intro acc hacc w hw
    simp only [wordsAux] at hw
    by_cases he : acc.isEmpty = true
    · rw [if_pos he] at hw
      simp at hw
    · rw [if_neg he] at hw
      rw [List.mem_singleton] at hw
      subst hw
      refine ⟨?_, ?_⟩
      · intro hnil
        exact he (by rw [List.isEmpty_iff]; exact List.reverse_eq_nil_iff.mp hnil)
      · intro x hx
        exact hacc x (List.mem_reverse.mp hx)
  | cons c cs ih =>
    intro acc hacc w hw
    simp only [wordsAux] at hw
    by_cases hc : isWsC c = true
    · rw [if_pos hc] at hw
      by_cases he : acc.isEmpty = true
      · rw [if_pos he] at hw
        exact ih [] (by simp) w hw
      · rw [if_neg he] at hw
        rw [List.mem_cons] at hw
        rcases hw with rfl | hw
        · refine ⟨?_, ?_⟩
          · intro hnil
            exact he (by rw [List.isEmpty_iff]; exact List.reverse_eq_nil_iff.mp hnil)
          · intro x hx
            exact hacc x (List.mem_reverse.mp hx)
        · exact ih [] (by simp) w hw
    · rw [if_neg hc] at hw
      refine ih (c :: acc) ?_ w hw
      intro x hx
      rw [List.mem_cons] at hx
      rcases hx with rfl | hx
      · simpa using hc
      · exact hacc x hx

/-- The pieces of a whitespace split are nonempty and whitespace-free. -/
theorem splitWs_words (s : List Char) :
    ∀ w ∈ splitWs s, w ≠ [] ∧ ∀ c ∈ w, isWsC c = false :=
  wordsAux_words s [] (by simp)

/-- Scanning a whitespace-free word just shifts it into the accumulator. -/
theorem wordsAux_append : ∀ (w : List Char),
    (∀ c ∈ w, isWsC c = false) →
    ∀ (r acc : List Char), wordsAux (w ++ r) acc = wordsAux r (w.reverse ++ acc) := by
  intro w
  induction w with
  | nil =>
    intro _ r acc
    simp
  | cons c w' ih =>
    intro hw r acc
    have hc : isWsC c = false := hw c (List.mem_cons_self _ _)
    rw [List.cons_append,
      show wordsAux (c :: (w' ++ r)) acc = wordsAux (w' ++ r) (c :: acc) from by
        simp [wordsAux, hc],
      ih (fun x hx => hw x (List.mem_cons_of_mem _ hx)) r (c :: acc)]
    simp [List.reverse_cons, List.append_assoc]

/-- Splitting the space-joined form of nonempty whitespace-free words recovers
the words: the left inverse behind idempotence of whitespace normalization. -/
theorem splitWs_joinSp : ∀ (l : List (List Char)),
    (∀ w ∈ l, w ≠ [] ∧ ∀ c ∈ w, isWsC c = false) → splitWs (joinSp l) = l := by
  intro l
  induction l with
  | nil =>
    intro _
    rfl
  | cons w ws ih =>
    intro hl
    obtain ⟨hwne, hwf⟩ := hl w (List.mem_cons_self _ _)
    have hrev : (w.reverse).isEmpty = false := by
      rw [Bool.eq_false_iff]
      intro hh
      rw [List.isEmpty_iff] at hh
      exact hwne (List.reverse_eq_nil_iff.mp hh)
    cases ws with
    | nil =>
      show splitWs (joinSp [w]) = [w]
      rw [show joinSp [w] = w from rfl, splitWs,
        show w = w ++ ([] : List Char) from (List.append_nil w).symm,
        wordsAux_append w hwf [] []]
      simp [wordsAux, hrev]
    | cons w2 ws' =>
      show splitWs (joinSp (w :: w2 :: ws')) = w :: w2 :: ws'
      rw [show joinSp (w :: w2 :: ws') = w ++ ' ' :: joinSp (w2 :: ws') from rfl,
        splitWs, wordsAux_append w hwf _ []]
      rw [List.append_nil]
      have ih' := ih fun x hx => hl x (List.mem_cons_of_mem _ hx)
      rw [splitWs] at ih'
      have hsp : isWsC ' ' = true := rfl
      simp [wordsAux, hsp, hrev, ih']

/-- Whitespace normalization is idempotent. -/
theorem normalizeWs_idem (s : List Char) :
    normalizeWs (normalizeWs s) = normalizeWs s := by
  rw [normalizeWs, normalizeWs, splitWs_joinSp (splitWs s) (splitWs_words s)]

/-- Characters of a space-joined list are spaces or characters of the words. -/
theorem joinSp_chars : ∀ (l : List (List Char)) (c : Char), c ∈ joinSp l →
    c = ' ' ∨ ∃ w ∈ l, c ∈ w := by
  intro l
  induction l with
  | nil =>
    intro c hc
    simp [joinSp] at hc
  | cons w ws ih =>
    intro c hc
    cases ws with
    | nil =>
      right
      exact ⟨w, List.mem_cons_self _ _, by simpa [joinSp] using hc⟩
    | cons w2 ws' =>
      rw [show joinSp (w :: w2 :: ws') = w ++ ' ' :: joinSp (w2 :: ws') from rfl] at hc
      rw [List.mem_append] at hc
      rcases hc with hc | hc
      · right
        exact ⟨w, List.mem_cons_self _ _, hc⟩
      · rw [List.mem_cons] at hc
        rcases hc with rfl | hc
        · left
          rfl
        · rcases ih c hc with h | ⟨w', hw', hcw⟩
          · left
            exact h
          · right
            exact ⟨w', List.mem_cons_of_mem _ hw', hcw⟩

/-- Newline replacement fixes strings without newlines or carriage returns. -/
theorem replaceNL_of_no_nl {s : List Char}
    (h : ∀ c ∈ s, c ≠ '\n' ∧ c ≠ '\r') : replaceNL s = s := by
  rw [replaceNL]
  conv_rhs => rw [← List.map_id s]
  apply List.map_congr_left
  intro c hc
  obtain ⟨h1, h2⟩ := h c hc
  simp [h1, h2]

/-- A normalized string contains no newline or carriage return, so newline
replacement fixes it. -/
theorem replaceNL_normalizeWs (s : List Char) :
    replaceNL (normalizeWs s) = normalizeWs s := by
  apply replaceNL_of_no_nl
  intro c hc
  rw [normalizeWs] at hc
  rcases joinSp_chars (splitWs s) c hc with rfl | ⟨w, hw, hcw⟩
  · constructor <;> decide
  · have hnw := (splitWs_words s w hw).2 c hcw
    constructor <;> (rintro rfl; exact absurd hnw (by decide))

/-- Cell cleaning is idempotent: cleaning an already-cleaned cell changes
nothing. -/
theorem cleanCell_idem (x : Option (List Char)) :
    cleanCell (some (cleanCell x)) = cleanCell x := by
  cases x with
  | none => rfl
  | some s =>
    show normalizeWs (replaceNL (normalizeWs (replaceNL s))) = normalizeWs (replaceNL s)
    rw [replaceNL_normalizeWs, normalizeWs_idem]

/-- A kept row's cell with nonempty `strip()` at index `j` gives column `j` of
the padded grid data. -/
theorem hasData_padRows {rows : List (List (List Char))} {r : List (List Char)}
    (hr : r ∈ rows) {j : ℕ} {cell : List Char} (hget : r.get? j = some cell)
    (hstrip : stripWs cell ≠ []) :
    hasData (padRows rows) j = true ∧ j < r.length := by
  have hjlt : j < r.length := by
    by_contra hge
    rw [List.get?_eq_none.mpr (by omega)] at hget
    exact Option.noConfusion hget
  refine ⟨?_, hjlt⟩
  rw [hasData_iff]
  refine ⟨r ++ List.replicate (maxNat (rows.map List.length) - r.length) [],
    ?_, cell, ?_, cellFilled_of_strip hstrip⟩
  · rw [padRows]
    exact List.mem_map_of_mem _ hr
  · rw [List.get?_append hjlt]
    exact hget

/-- Structural invariants of a `processGrid` result: the output grid is
nonempty and rectangular with positive row width `L`; its last column index
`L - 1` is the greatest column with data among `0..L-1`; every row passes the
row filter; and every cell is fixed by cell cleaning. -/
theorem processGrid_inv {t : RawTable} {g : List (List (List Char))}
    (h : processGrid t = some g) :
    ∃ L, 0 < L ∧ g ≠ [] ∧ (∀ row ∈ g, row.length = L) ∧
      ((List.range L).filter fun c => hasData g c) ≠ [] ∧
      maxNat ((List.range L).filter fun c => hasData g c) = L - 1 ∧
      (∀ row ∈ g, rowKept row = true) ∧
      (∀ row ∈ g, ∀ cell ∈ row, cleanCell (some cell) = cell) := by
  by_cases hemp : ((t.map cleanRow).filter rowKept).isEmpty = true
  · have hnone : processGrid t = none := by simp [processGrid, hemp]
    rw [hnone] at h
    exact Option.noConfusion h
  have hemp' : ((t.map cleanRow).filter rowKept).isEmpty = false := by simpa using hemp
  rw [processGrid_eq hemp'] at h
  injection h with hg
  have hfne : (t.map cleanRow).filter rowKept ≠ [] := by
    intro hh
    rw [hh] at hemp'
    simp at hemp'
  have hf : ∀ row ∈ (t.map cleanRow).filter rowKept, rowKept row = true :=
    fun row hrow => (List.mem_filter.mp hrow).2
  have hcne := colsWith_ne_nil hf hfne
  rw [truncateCols_eq hcne] at hg
  set filtered := (t.map cleanRow).filter rowKept with hfildef
  set m := maxNat (filtered.map List.length) with hmdef
  set padded := padRows filtered with hpaddef
  set colsWith := (List.range m).filter (fun c => hasData padded c) with hcwdef
  set lvc := maxNat colsWith with hlvcdef
  have hlvcmem : lvc ∈ colsWith := maxNat_mem hcne
  rw [hcwdef] at hlvcmem
  obtain ⟨hlvcrange, hlvcdata⟩ := List.mem_filter.mp hlvcmem
  rw [List.mem_range] at hlvcrange
  have hplen : ∀ row ∈ padded, row.length = m := by
    intro row hrow
    rw [hpaddef] at hrow
    rw [hmdef]
    exact padRows_length row hrow
  have hdata2 : hasData g lvc = true := by
    rw [hasData_iff]
    rw [hasData_iff] at hlvcdata
    obtain ⟨pr, hpr, cell, hget, hfill⟩ := hlvcdata
    refine ⟨pr.take (lvc + 1), ?_, cell, ?_, hfill⟩
    · rw [← hg]
      exact List.mem_map_of_mem _ hpr
    · rw [List.get?_take (by omega)]
      exact hget
  refine ⟨lvc + 1, by omega, ?_, ?_, ?_, ?_, ?_, ?_⟩
  · rw [← hg]
    have hpne : padded ≠ [] := by
      rw [hpaddef]
      exact padRows_ne_nil hfne
    simpa using hpne
  · intro row hrow
    rw [← hg, List.mem_map] at hrow
    obtain ⟨pr, hpr, rfl⟩ := hrow
    rw [List.length_take, hplen pr hpr]
    omega
  · apply List.ne_nil_of_mem (a := lvc)
    rw [List.mem_filter, List.mem_range]
    exact ⟨by omega, hdata2⟩
  · rw [Nat.add_sub_cancel]
    apply maxNat_eq_of_mem_of_le
    · rw [List.mem_filter, List.mem_range]
      exact ⟨by omega, hdata2⟩
    · intro x hx
      rw [List.mem_filter, List.mem_range] at hx
      omega
  · intro row hrow
    rw [← hg, List.mem_map] at hrow
    obtain ⟨pr, hpr, rfl⟩ := hrow
    rw [hpaddef, padRows, List.mem_map] at hpr
    obtain ⟨fr, hfr, rfl⟩ := hpr
    obtain ⟨-, cell, hcell, hstrip⟩ := rowKept_iff.mp (hf fr hfr)
    obtain ⟨j, hj⟩ := List.get?_of_mem hcell
    obtain ⟨hjdata, hjlt⟩ := hasData_padRows hfr hj hstrip
    rw [← hpaddef] at hjdata
    have hjcw : j ∈ colsWith := by
      rw [hcwdef, List.mem_filter, List.mem_range]
      have hfl : fr.length ≤ m := by
        rw [hmdef]
        exact le_maxNat (List.mem_map_of_mem List.length hfr)
      exact ⟨by omega, hjdata⟩
    have hjle : j ≤ lvc := by
      rw [hlvcdef]
      exact le_maxNat hjcw
    have hrowget :
        ((fr ++ List.replicate (maxNat (filtered.map List.length) - fr.length)
          []).take (lvc + 1)).get? j = some cell := by
      rw [List.get?_take (by omega), List.get?_append hjlt]
      exact hj
    rw [rowKept_iff]
    exact ⟨List.ne_nil_of_mem (List.get?_mem hrowget),
      cell, List.get?_mem hrowget, hstrip⟩
  · intro row hrow cell hcell
    rw [← hg, List.mem_map] at hrow
    obtain ⟨pr, hpr, rfl⟩ := hrow
    have hcell' : cell ∈ pr := List.mem_of_mem_take hcell
    rw [hpaddef, padRows, List.mem_map] at hpr
    obtain ⟨fr, hfr, rfl⟩ := hpr
    rw [List.mem_append] at hcell'
    rcases hcell' with hcf | hcr
    · rw [hfildef] at hfr
      have hmem : fr ∈ t.map cleanRow := (List.mem_filter.mp hfr).1
      rw [List.mem_map] at hmem
      obtain ⟨orig, -, rfl⟩ := hmem
      rw [cleanRow, List.mem_map] at hcf
      obtain ⟨x, -, rfl⟩ := hcf
      exact cleanCell_idem x
    · rw [List.mem_replicate] at hcr
      rw [hcr.2]
      rfl

/-! ## Claims -/

/-- C4: `needs_manual_check` is true iff row count > 20, column count > 6,
flask < 80, or uncertain-cell ratio > 0.5; in particular more than 20 rows
alone forces the flag, and when no condition holds the flag is false. -/
theorem c4_needs_manual_check_iff (c : Complexity) (flask uncertainFrac : ℚ) :
    (needs_manual_check c flask uncertainFrac = true ↔
      (20 < c.rows ∨ 6 < c.cols ∨ flask < 80 ∨ (1 : ℚ)/2 < uncertainFrac)) ∧
    (20 < c.rows → needs_manual_check c flask uncertainFrac = true) ∧
    (¬ 20 < c.rows → ¬ 6 < c.cols → ¬ flask < 80 → ¬ (1 : ℚ)/2 < uncertainFrac →
      needs_manual_check c flask uncertainFrac = false) := by
  refine ⟨?_, ?_, ?_⟩
  · simp only [needs_manual_check, Bool.or_eq_true, decide_eq_true_eq]
    tauto
  · intro h
    simp [needs_manual_check, h]
  · intro h1 h2 h3 h4
    simp only [needs_manual_check, decide_eq_false h1, decide_eq_false h2,
      decide_eq_false h3, decide_eq_false h4, Bool.or_self]

/-- Witness for C4: a 21×1 grid is flagged whatever the other inputs; a 3×3
grid with flask 100 and ratio 0 is not. -/
theorem c4_needs_manual_check_iff_witness :
    needs_manual_check ⟨21, 1, false, 0, 0⟩ 100 0 = true ∧
    needs_manual_check ⟨3, 3, false, 0, 0⟩ 100 0 = false := by
  constructor
  · exact (c4_needs_manual_check_iff ⟨21, 1, false, 0, 0⟩ 100 0).2.1 (by norm_num)
  · exact (c4_needs_manual_check_iff ⟨3, 3, false, 0, 0⟩ 100 0).2.2
      (by norm_num) (by norm_num) (by norm_num) (by norm_num)

/-- C2 (evaluation at the failing input): two mid-page paragraphs with top
coordinates 300 and 500 on a page of height 1000 come out of
`classify`'s sort-and-filter in the order [500, 300] — bottom of the page
first, since the sort is descending on the top coordinate, which grows
downward — contradicting the claimed ascending (top-first) order. -/
theorem c2_sort_bottom_first :
    (classifyBlocks 1000
        [⟨ContentType.paragraph, cl "alpha", (0, 300, 10, 310)⟩,
         ⟨ContentType.paragraph, cl "beta", (0, 500, 10, 510)⟩]).map
      (fun b => b.bbox.2.1) = [500, 300] ∧
    (classifyBlocks 1000
        [⟨ContentType.paragraph, cl "alpha", (0, 300, 10, 310)⟩,
         ⟨ContentType.paragraph, cl "beta", (0, 500, 10, 510)⟩]).map
      (fun b => b.bbox.2.1) ≠ [300, 500] := by
  with_unfolding_all decide

/-- C3 (counterexample): a failing extraction primitive produces the same
empty table list as a succeeding primitive that finds no tables, so the
failure does not propagate and is not distinguishable from "no tables". -/
theorem c3_counterexample :
    extract 50 1 (.error (cl "boom")) = extract 50 1 (.ok []) ∧
    extract 50 1 (.error (cl "boom")) = [] := by
  constructor <;> rfl

/-- C3 (amended): `TableExtractor.extract` catches any failure of the
extraction primitive and returns the empty list, exactly what a successful
extraction with no tables returns. -/
theorem c3_extract_swallows (th : ℚ) (pn : ℕ) (e : List Char) :
    extract th pn (.error e) = [] ∧ extract th pn (.ok []) = [] := by
  constructor <;> rfl

/-- C1 (counterexample): the line "Hello world" matches no section pattern and
its words have mean font size 21 > 14; the classifier marks it a heading with
confidence 0.95 — not 0.7 — and heading level 2, not the claimed
font-size-derived level 1 (21 ≥ 20). -/
theorem c1_counterexample :
    classify_text_type (cl "Hello world") [⟨some 21⟩, ⟨some 21⟩] =
      (ContentType.heading, ⟨some (19/20), none⟩) ∧
    extract_heading_level (cl "Hello world") = 2 ∧
    ¬((classify_text_type (cl "Hello world") [⟨some 21⟩, ⟨some 21⟩]).2.confidence =
        some (7/10) ∧
      extract_heading_level (cl "Hello world") = 1) := by
  with_unfolding_all decide

/-- C1 (amended): when no section pattern matches and the font-size rule fires
(first word has a size and the mean size exceeds 14), the line is classified
as a heading with confidence metadata 0.95 and heading level 2 — the default
level, independent of the absolute font size. -/
theorem c1_font_heading_defaults (text : List Char) (ws : List Word)
    (hpat : sectionLevel text = none) (hfont : fontHeading ws = true) :
    classify_text_type text ws = (ContentType.heading, ⟨some (19/20), none⟩) ∧
    extract_heading_level text = 2 := by
  constructor
  · simp [classify_text_type, is_heading, hpat, hfont]
  · simp [extract_heading_level, hpat]

/-- Witness for C1 (amended), at the line "Hello world" with two words of font
size 21. -/
theorem c1_font_heading_defaults_witness :
    sectionLevel (cl "Hello world") = none ∧
    fontHeading [⟨some 21⟩, ⟨some 21⟩] = true ∧
    classify_text_type (cl "Hello world") [⟨some 21⟩, ⟨some 21⟩] =
      (ContentType.heading, ⟨some (19/20), none⟩) ∧
    extract_heading_level (cl "Hello world") = 2 := by
  refine ⟨by decide, by with_unfolding_all decide, ?_⟩
  exact c1_font_heading_defaults (cl "Hello world") [⟨some 21⟩, ⟨some 21⟩]
    (by decide) (by with_unfolding_all decide)

/-- C6: a (stripped) line matching `^\d+\.\s+.+$` is classified as a heading
of level exactly 1, one matching `^\d+\.\d+\.\s+.+$` level exactly 2, one
matching `^\d+\.\d+\.\d+\s+(.+)$` level exactly 3 — whatever the words' font
sizes — with confidence metadata fixed at 0.95, the first matching pattern in
the priority order of `SECTION_PATTERNS` deciding heading status and level. -/
theorem c6_section_pattern_levels (text : List Char) (ws : List Word)
    (hstrip : stripWs text = text) :
    (matchL1 text = true →
      classify_text_type text ws = (ContentType.heading, ⟨some (19/20), none⟩) ∧
      extract_heading_level text = 1) ∧
    (matchL2 text = true →
      classify_text_type text ws = (ContentType.heading, ⟨some (19/20), none⟩) ∧
      extract_heading_level text = 2) ∧
    (matchL3 text = true →
      classify_text_type text ws = (ContentType.heading, ⟨some (19/20), none⟩) ∧
      extract_heading_level text = 3) := by
  refine ⟨?_, ?_, ?_⟩
  · intro h
    have hsec : sectionLevel text = some 1 := by
      simp [sectionLevel, hstrip, matchL1_not_matchL3 h, matchL1_not_matchL2 h, h]
    constructor
    · simp [classify_text_type, is_heading, hsec]
    · simp [extract_heading_level, hsec]
  · intro h
    have hsec : sectionLevel text = some 2 := by
      simp [sectionLevel, hstrip, matchL2_not_matchL3 h, h]
    constructor
    · simp [classify_text_type, is_heading, hsec]
    · simp [extract_heading_level, hsec]
  · intro h
    have hsec : sectionLevel text = some 3 := by
      simp [sectionLevel, hstrip, h]
    constructor
    · simp [classify_text_type, is_heading, hsec]
    · simp [extract_heading_level, hsec]

/-- Unfolding equation for `score_table` with a nonempty first row. -/
theorem score_table_main (th flask : ℚ) (r0 : List (List Char))
    (rest : List (List (List Char))) (h : r0.isEmpty = false) :
    score_table th (r0 :: rest) flask =
      ⟨((((r0 :: rest).map fun row => row.map score_cell).flatten.sum /
          ((((r0 :: rest).map fun row => row.map score_cell).flatten.length : ℕ) : ℚ)) +
            flask) / 2,
       (r0 :: rest).map fun row => row.map score_cell,
       uncertainCellsFrom th 0 (r0 :: rest),
       uncertainCellsFrom th 0 (r0 :: rest)⟩ := by
  have hflat :
      (((r0 :: rest).map fun row => row.map score_cell).flatten).isEmpty = false := by
    cases r0 with
    | nil => simp at h
    | cons c cs => simp
  simp [score_table, h, hflat]
  rw [if_neg]
  rintro ⟨rfl, -⟩
  simp at h

/-- C5: for every rectangular grid (the spec's `TableGrid` data model: all
rows of equal length) and every externalAccuracy in [0, 100], the overall
confidence of `score_table` lies in [0, 100]; a position is in the uncertain
list exactly when its cell's score is strictly below the threshold; and the
number of uncertain cells is monotone non-decreasing in the threshold.  The
bounds and the monotonicity are proved for arbitrary (even ragged) grids. -/
theorem c5_score_table (t : List (List (List Char))) (flask th th' : ℚ)
    (h0 : 0 ≤ flask) (h1 : flask ≤ 100) (hth : th ≤ th') :
    (0 ≤ (score_table th t flask).overall_confidence ∧
      (score_table th t flask).overall_confidence ≤ 100) ∧
    ((score_table th t flask).uncertain_cells.length ≤
      (score_table th' t flask).uncertain_cells.length) ∧
    (∀ n, (∀ row ∈ t, row.length = n) →
      ∀ ri ci, ((ri, ci) ∈ (score_table th t flask).uncertain_cells ↔
        ∃ row cell, t.get? ri = some row ∧ row.get? ci = some cell ∧
          score_cell cell < th)) := by
  have hmono : ∀ a : List Char,
      decide (score_cell a < th) = true → decide (score_cell a < th') = true := by
    intro a ha
    rw [decide_eq_true_eq] at ha ⊢
    exact lt_of_lt_of_le ha hth
  cases t with
  | nil =>
    refine ⟨⟨by simp [score_table], ?_⟩, by simp [score_table], ?_⟩
    · simp [score_table]
    · intro n hn ri ci
      simp [score_table]
  | cons r0 rest =>
    by_cases hr0 : r0.isEmpty
    · have hr0' : r0 = [] := List.isEmpty_iff.mp hr0
      subst hr0'
      refine ⟨⟨by simp [score_table], ?_⟩, by simp [score_table], ?_⟩
      · simp [score_table]
      · intro n hn ri ci
        have hn0 : n = 0 := (hn [] (List.mem_cons_self _ _)).symm
        subst hn0
        constructor
        · intro h
          simp [score_table] at h
        · rintro ⟨row, cell, hget, hget2, -⟩
          have hrow := hn row (List.get?_mem hget)
          rw [List.length_eq_zero] at hrow
          subst hrow
          simp at hget2
    · have hr0' : r0.isEmpty = false := by simpa using hr0
      rw [score_table_main th flask r0 rest hr0',
        score_table_main th' flask r0 rest hr0']
      set flat := ((r0 :: rest).map fun row => row.map score_cell).flatten with hflatdef
      have hflatne : flat ≠ [] := by
        rw [hflatdef]
        cases r0 with
        | nil => simp at hr0'
        | cons c cs => simp
      have hbounds : ∀ x ∈ flat, 0 ≤ x ∧ x ≤ 100 := by
        intro x hx
        rw [hflatdef, List.mem_flatten] at hx
        obtain ⟨l, hl, hxl⟩ := hx
        rw [List.mem_map] at hl
        obtain ⟨row, -, rfl⟩ := hl
        rw [List.mem_map] at hxl
        obtain ⟨cell, -, rfl⟩ := hxl
        exact score_cell_bounds cell
      obtain ⟨hS0, hS1⟩ := sum_bounds_of_mem hbounds
      have hlen : (0 : ℚ) < flat.length := by
        rw [Nat.cast_pos, List.length_pos]
        exact hflatne
      have hmean0 : 0 ≤ flat.sum / (flat.length : ℚ) :=
        div_nonneg hS0 (le_of_lt hlen)
      have hmean1 : flat.sum / (flat.length : ℚ) ≤ 100 := by
        rw [div_le_iff₀ hlen]
        linarith
      refine ⟨⟨by simpa using by linarith, by simpa using by linarith⟩, ?_, ?_⟩
      · simp only [ScoreResult.mk.injEq]
        rw [uncertainCellsFrom_length th, uncertainCellsFrom_length th']
        apply List.sum_le_sum
        intro row hrow
        exact countP_mono_of_imp hmono row
      · intro n hn ri ci
        simp only
        rw [uncertainCellsFrom_mem th]
        constructor
        · rintro ⟨i, row, cell, hget, hri, hget2, hlt⟩
          have hiri : i = ri := by omega
          subst hiri
          exact ⟨row, cell, hget, hget2, hlt⟩
        · rintro ⟨row, cell, hget, hget2, hlt⟩
          exact ⟨ri, row, cell, hget, by omega, hget2, hlt⟩

/-- Witness for C5: the spec's worked grid at thresholds 50 and 60 with
external accuracy 90. -/
theorem c5_score_table_witness :
    ((0 : ℚ) ≤ 90 ∧ (90 : ℚ) ≤ 100 ∧ (50 : ℚ) ≤ 60) ∧
    ((score_table 50 [[cl "H1", cl "H2"], [cl "D1", cl ""]] 90).uncertain_cells.length ≤
      (score_table 60 [[cl "H1", cl "H2"], [cl "D1", cl ""]] 90).uncertain_cells.length) ∧
    ((1, 1) ∈ (score_table 50 [[cl "H1", cl "H2"], [cl "D1", cl ""]] 90).uncertain_cells) := by
  have h := c5_score_table [[cl "H1", cl "H2"], [cl "D1", cl ""]] 90 50 60
    (by norm_num) (by norm_num) (by norm_num)
  refine ⟨⟨by norm_num, by norm_num, by norm_num⟩, h.2.1, ?_⟩
  exact (h.2.2 2 (by decide) 1 1).mpr
    ⟨[cl "D1", cl ""], cl "", by decide, by decide, by with_unfolding_all decide⟩

/-- Witness for C6, at the three section headings of the spec's scenarios,
with words of font size 5 (far below the heading threshold). -/
theorem c6_section_pattern_levels_witness :
    extract_heading_level (cl "1. Features") = 1 ∧
    extract_heading_level (cl "2.1. Description") = 2 ∧
    extract_heading_level (cl "3.1.2 Pin Functions") = 3 := by
  refine ⟨?_, ?_, ?_⟩
  · exact ((c6_section_pattern_levels (cl "1. Features") [⟨some 5⟩]
      (by decide)).1 (by decide)).2
  · exact ((c6_section_pattern_levels (cl "2.1. Description") [⟨some 5⟩]
      (by decide)).2.1 (by decide)).2
  · exact ((c6_section_pattern_levels (cl "3.1.2 Pin Functions") [⟨some 5⟩]
      (by decide)).2.2 (by decide)).2

/-- C8: malformed grid input yields an empty result, never an exception (the
embedding is total by construction): scoring a grid with no rows, or with an
empty (falsy) first row, returns overall confidence 0 with no uncertain cells
and no issues; and a raw table whose cells all clean to whitespace-free empty
content is reported as `none` ("no table"), not as an empty grid. -/
theorem c8_degenerate_inputs (th flask : ℚ) (rest : List (List (List Char)))
    (t : RawTable)
    (hall : ∀ row ∈ t, ∀ cell ∈ cleanRow row, stripWs cell = []) :
    score_table th [] flask = ⟨0, [], [], []⟩ ∧
    score_table th ([] :: rest) flask = ⟨0, [], [], []⟩ ∧
    processGrid t = none := by
  refine ⟨rfl, by simp [score_table], ?_⟩
  have hfil : (t.map cleanRow).filter rowKept = [] := by
    rw [List.filter_eq_nil_iff]
    intro a ha
    rw [List.mem_map] at ha
    obtain ⟨row, hrow, rfl⟩ := ha
    intro hk
    obtain ⟨-, cell, hc, hcc⟩ := rowKept_iff.mp hk
    exact hcc (hall row hrow cell hc)
  simp [processGrid, hfil]

/-- Witness for C8: a two-row raw table of `None` and whitespace cells. -/
theorem c8_degenerate_inputs_witness :
    (∀ row ∈ ([[some (cl "  "), none], []] : RawTable),
      ∀ cell ∈ cleanRow row, stripWs cell = []) ∧
    score_table 50 [] 90 = ⟨0, [], [], []⟩ ∧
    processGrid ([[some (cl "  "), none], []] : RawTable) = none := by
  refine ⟨by decide, ?_, ?_⟩
  · exact (c8_degenerate_inputs 50 90 [] [[some (cl "  "), none], []]
      (by decide)).1
  · exact (c8_degenerate_inputs 50 90 [] [[some (cl "  "), none], []]
      (by decide)).2.2

/-- C9: `get_metrics` computes the coverage exactly as
`(1 - 0.5 * totalUncertain/totalCells) * 100` with no clamping, `100` when no
cells were recorded; and whenever each recorded table's uncertain-cell count
is at most its rows*cols, coverage lies in [50, 100], hence in [0, 100]. -/
theorem c9_coverage_bounds (tabs : List ReportedTable)
    (hub : ∀ r ∈ tabs, r.uncertain_cells.length ≤ r.rows * r.cols) :
    ((get_metrics tabs).coverage =
      (1 - (1/2) * (if 0 < (tabs.map fun r => r.rows * r.cols).sum then
        (((tabs.map fun r => r.uncertain_cells.length).sum : ℕ) : ℚ) /
          ((((tabs.map fun r => r.rows * r.cols).sum : ℕ)) : ℚ)
        else 0)) * 100) ∧
    ((tabs.map fun r => r.rows * r.cols).sum = 0 →
      (get_metrics tabs).coverage = 100) ∧
    (50 ≤ (get_metrics tabs).coverage ∧ (get_metrics tabs).coverage ≤ 100) ∧
    (0 ≤ (get_metrics tabs).coverage ∧ (get_metrics tabs).coverage ≤ 100) := by
  have hcov : (get_metrics tabs).coverage =
      (1 - (if 0 < (tabs.map fun r => r.rows * r.cols).sum then
        (((tabs.map fun r => r.uncertain_cells.length).sum : ℕ) : ℚ) /
          ((((tabs.map fun r => r.rows * r.cols).sum : ℕ)) : ℚ)
        else 0) * (1/2)) * 100 := by
    simp [get_metrics]
  have hUC : (tabs.map fun r => r.uncertain_cells.length).sum ≤
      (tabs.map fun r => r.rows * r.cols).sum := by
    apply List.sum_le_sum
    intro r hr
    exact hub r hr
  have hfrac : 0 ≤ (if 0 < (tabs.map fun r => r.rows * r.cols).sum then
        (((tabs.map fun r => r.uncertain_cells.length).sum : ℕ) : ℚ) /
          ((((tabs.map fun r => r.rows * r.cols).sum : ℕ)) : ℚ)
        else 0) ∧
      (if 0 < (tabs.map fun r => r.rows * r.cols).sum then
        (((tabs.map fun r => r.uncertain_cells.length).sum : ℕ) : ℚ) /
          ((((tabs.map fun r => r.rows * r.cols).sum : ℕ)) : ℚ)
        else 0) ≤ 1 := by
    split_ifs with hpos
    · have hposq : (0 : ℚ) < (((tabs.map fun r => r.rows * r.cols).sum : ℕ) : ℚ) := by
        exact_mod_cast hpos
      constructor
      · positivity
      · rw [div_le_one hposq]
        exact_mod_cast hUC
    · norm_num
  obtain ⟨hf0, hf1⟩ := hfrac
  have hbounds : 50 ≤ (get_metrics tabs).coverage ∧
      (get_metrics tabs).coverage ≤ 100 := by
    rw [hcov]
    constructor <;> nlinarith
  refine ⟨by rw [hcov]; ring, ?_, hbounds, by constructor <;> linarith [hbounds.1, hbounds.2]⟩
  intro hzero
  rw [hcov, if_neg (by omega)]
  norm_num

/-- Witness for C9: two recorded tables, one with an uncertain cell. -/
theorem c9_coverage_bounds_witness :
    (∀ r ∈ [(⟨some 90, true, [(0, 0)], 2, 2⟩ : ReportedTable),
        ⟨none, false, [], 1, 1⟩],
      r.uncertain_cells.length ≤ r.rows * r.cols) ∧
    50 ≤ (get_metrics [(⟨some 90, true, [(0, 0)], 2, 2⟩ : ReportedTable),
        ⟨none, false, [], 1, 1⟩]).coverage ∧
    (get_metrics [(⟨some 90, true, [(0, 0)], 2, 2⟩ : ReportedTable),
        ⟨none, false, [], 1, 1⟩]).coverage ≤ 100 := by
  refine ⟨by decide, ?_, ?_⟩
  · exact (c9_coverage_bounds [⟨some 90, true, [(0, 0)], 2, 2⟩,
      ⟨none, false, [], 1, 1⟩] (by decide)).2.2.1.1
  · exact (c9_coverage_bounds [⟨some 90, true, [(0, 0)], 2, 2⟩,
      ⟨none, false, [], 1, 1⟩] (by decide)).2.2.1.2

/-- C10: the flask score handed to the scorer and the manual-check decision is
not supplied externally; `_process_table` computes it from the cleaned grid as
`100 * (non-empty cells / total cells)`, and a cleaned grid in which strictly
more than 20% of the cells are empty (five times the empty-cell count exceeds
the cell count) is flagged `needs_manual_check` through the `flask < 80`
trigger, whatever its row count, column count and uncertain-cell ratio. -/
theorem c10_flask_from_grid (th : ℚ) (pn idx : ℕ) (t : RawTable)
    (res : TableResult) (h : process_table th pn idx t = some res) :
    res.flask = 100 * ((filledCount res.data : ℚ) / (cellCount res.data : ℚ)) ∧
    (cellCount res.data < 5 * (cellCount res.data - filledCount res.data) →
      res.needs_check = true) := by
  rw [process_table] at h
  cases hpg : processGrid t with
  | none => rw [hpg] at h; exact Option.noConfusion h
  | some data =>
    rw [hpg] at h
    obtain ⟨L, hL, hne, hlen⟩ := processGrid_shape hpg
    have htotal : 0 < cellCount data := cellCount_pos hL hne hlen
    simp only [Option.some.injEq] at h
    subst h
    simp only
    rw [if_pos htotal]
    have htq : (0 : ℚ) < (cellCount data : ℚ) := by exact_mod_cast htotal
    constructor
    · rw [mul_comm]
    · intro hemp
      have hfle := filledCount_le_cellCount data
      have hflask : (filledCount data : ℚ) / (cellCount data : ℚ) * 100 < 80 := by
        rw [div_mul_eq_mul_div, div_lt_iff₀ htq]
        have h5 : 5 * filledCount data < 4 * cellCount data := by omega
        have h5q : 5 * (filledCount data : ℚ) < 4 * (cellCount data : ℚ) := by
          exact_mod_cast h5
        nlinarith
      simp only [needs_manual_check, Bool.or_eq_true, decide_eq_true_eq]
      exact Or.inl (Or.inr hflask)

/-- Witness for C10: a raw table cleaning to a 2×3 grid with three empty cells
(50% empty) gets flask 50 and is flagged for manual check. -/
theorem c10_flask_from_grid_witness :
    process_table 50 1 0 [[some (cl "a"), none, none], [some (cl "b"), none, some (cl "c")]] =
      some ⟨[[cl "a", cl "", cl ""], [cl "b", cl "", cl "c"]], 50, 1, 0, true,
        [(0, 1), (0, 2), (1, 1)], ⟨2, 3, true, 3, 53/200⟩, 50⟩ ∧
    cellCount [[cl "a", cl "", cl ""], [cl "b", cl "", cl "c"]] <
      5 * (cellCount [[cl "a", cl "", cl ""], [cl "b", cl "", cl "c"]] -
        filledCount [[cl "a", cl "", cl ""], [cl "b", cl "", cl "c"]]) ∧
    (50 : ℚ) = 100 * ((filledCount [[cl "a", cl "", cl ""], [cl "b", cl "", cl "c"]] : ℚ) /
      (cellCount [[cl "a", cl "", cl ""], [cl "b", cl "", cl "c"]] : ℚ)) ∧
    needs_manual_check ⟨2, 3, true, 3, 53/200⟩ 50 (1/2) = true := by
  have hp : process_table 50 1 0
      [[some (cl "a"), none, none], [some (cl "b"), none, some (cl "c")]] =
      some ⟨[[cl "a", cl "", cl ""], [cl "b", cl "", cl "c"]], 50, 1, 0, true,
        [(0, 1), (0, 2), (1, 1)], ⟨2, 3, true, 3, 53/200⟩, 50⟩ := by
    with_unfolding_all decide
  have h := c10_flask_from_grid 50 1 0
    [[some (cl "a"), none, none], [some (cl "b"), none, some (cl "c")]] _ hp
  refine ⟨hp, by decide, h.1, ?_⟩
  have hcheck := h.2 (by decide)
  exact hcheck

/-- C7: the table post-processing grid transformation is idempotent — when a
raw grid produces a grid, the output has all rows of one (positive) column
count, and feeding the output back in (each cell wrapped as a present string)
reproduces it identically: nothing further is cleaned, dropped, padded or
truncated. -/
theorem c7_processGrid_idempotent (t : RawTable) (g : List (List (List Char)))
    (h : processGrid t = some g) :
    (∃ L, 0 < L ∧ ∀ row ∈ g, row.length = L) ∧
    processGrid (g.map fun r => r.map some) = some g := by
  obtain ⟨L, hL, hne, hlen, hcw2, hmax2, hkept, hclean⟩ := processGrid_inv h
  refine ⟨⟨L, hL, hlen⟩, ?_⟩
  have hclean2 : (g.map fun r => r.map some).map cleanRow = g := by
    rw [List.map_map]
    conv_rhs => rw [← List.map_id g]
    apply List.map_congr_left
    intro r hr
    simp only [Function.comp, cleanRow, List.map_map, id]
    conv_rhs => rw [← List.map_id r]
    apply List.map_congr_left
    intro cell hcell
    exact hclean r hr cell hcell
  have hfil2 : ((g.map fun r => r.map some).map cleanRow).filter rowKept = g := by
    rw [hclean2]
    exact List.filter_eq_self.mpr hkept
  have hmg : maxNat (g.map List.length) = L := by
    apply maxNat_eq_of_mem_of_le
    · obtain ⟨r, hr⟩ := List.exists_mem_of_ne_nil g hne
      rw [← hlen r hr]
      exact List.mem_map_of_mem List.length hr
    · intro x hx
      rw [List.mem_map] at hx
      obtain ⟨r, hr, rfl⟩ := hx
      rw [hlen r hr]
  have hpad2 : padRows g = g := by
    rw [padRows]
    conv_rhs => rw [← List.map_id g]
    apply List.map_congr_left
    intro r hr
    rw [hmg, hlen r hr, Nat.sub_self, List.replicate_zero, List.append_nil, id]
  have htr2 : truncateCols L g = g := by
    rw [truncateCols_eq hcw2, hmax2]
    conv_rhs => rw [← List.map_id g]
    apply List.map_congr_left
    intro r hr
    rw [show L - 1 + 1 = L from by omega, ← hlen r hr, List.take_length, id]
  have hemp2 : (((g.map fun r => r.map some).map cleanRow).filter rowKept).isEmpty
      = false := by
    rw [hfil2, Bool.eq_false_iff]
    intro hh
    rw [List.isEmpty_iff] at hh
    exact hne hh
  rw [processGrid_eq hemp2, hfil2, hmg, hpad2, htr2]

/-- Witness for C7: a raw table with `None` cells, whitespace cells, a ragged
short row and an empty trailing column, and its processed output fed back. -/
theorem c7_processGrid_idempotent_witness :
    processGrid [[some (cl " a  b\nc "), some (cl "  ")], [none],
        [some (cl "x"), some (cl "y"), none]] =
      some [[cl "a b c", cl ""], [cl "x", cl "y"]] ∧
    processGrid (([[cl "a b c", cl ""], [cl "x", cl "y"]]).map fun r => r.map some) =
      some [[cl "a b c", cl ""], [cl "x", cl "y"]] := by
  have hp : processGrid [[some (cl " a  b\nc "), some (cl "  ")], [none],
      [some (cl "x"), some (cl "y"), none]] =
      some [[cl "a b c", cl ""], [cl "x", cl "y"]] := by decide
  exact ⟨hp, (c7_processGrid_idempotent _ _ hp).2⟩

end DTM
